import Mathlib

/-!
# Verification of the coral-pytorch numeric core

Shallow embedding of the numeric core of the coral-pytorch library
(label encoding, CORAL/CORN losses, decoders, CORAL output layer).
Batches are lists, rows are lists; real-valued tensors become `List ℝ`
(or a linear ordered field where the computation is order-only), integer
label batches become `List ℕ`.

The library module that holds these functions is not part of the source
tree available here (only tutorial notebooks calling them are), so each
core definition is modelled from the specification text, as marked in
its doc comment.
-/

namespace CoralPytorch

/-- Modelled from the spec: the logistic sigmoid used to turn a logit
into a conditional probability (missing library module
coral_pytorch.losses / dataset). -/
noncomputable def sigmoid (x : ℝ) : ℝ := 1 / (1 + Real.exp (-x))

/-- Modelled from the spec: log of the sigmoid (the stable log-sigmoid
in the loss formulas). -/
noncomputable def logsigmoid (x : ℝ) : ℝ := Real.log (sigmoid x)

/-- Modelled from the spec: the stable binary cross-entropy-with-logits
term for one logit `z` and one binary level `lvl`:
`logsigmoid(z)*lvl + (logsigmoid(z) - z)*(1 - lvl)`. -/
noncomputable def bceTerm (z lvl : ℝ) : ℝ :=
  logsigmoid z * lvl + (logsigmoid z - z) * (1 - lvl)

/-- Modelled from the spec: encoding of a single ordinal label into its
extended binary level vector of length `K-1`; position `i` is `1` iff
`label > i` (missing library function `label_to_levels`). -/
def label_to_levels (label K : ℕ) : List ℕ :=
  (List.range (K - 1)).map (fun i => if i < label then 1 else 0)

/-- Modelled from the spec: batch version of the level encoding
(missing library function `levels_from_labelbatch`). -/
def levels_from_labelbatch (labels : List ℕ) (K : ℕ) : List (List ℕ) :=
  labels.map (fun l => label_to_levels l K)

/-- Three-way zip-with, used to pair each logit with its level and the
importance weight of its sub-task. -/
def zipWith3 {α β γ δ : Type*} (f : α → β → γ → δ) : List α → List β → List γ → List δ
  | a :: as, b :: bs, c :: cs => f a b c :: zipWith3 f as bs cs
  | _, _, _ => []

/-- Modelled from the spec: CORAL per-example loss row — the stable
cross-entropy terms of the `K-1` sub-tasks, each scaled by that task's
importance weight. -/
noncomputable def coralRowLoss (w zs ls : List ℝ) : ℝ :=
  (zipWith3 (fun z l wi => bceTerm z l * wi) zs ls w).sum

/-- Modelled from the spec: the CORAL loss (missing library function
`coral_loss`): negated sum of the weighted stable cross-entropy terms
over all examples and sub-tasks, divided by the batch size. -/
noncomputable def coral_loss (logits levels : List (List ℝ)) (w : List ℝ) : ℝ :=
  -((List.zipWith (fun zs ls => coralRowLoss w zs ls) logits levels).sum) / logits.length

/-- Modelled from the spec: the conditional training set of CORN
sub-task `i` — the (logit-row, label) pairs whose label is `≥ i`. -/
def cornSubset (logits : List (List ℝ)) (labels : List ℕ) (i : ℕ) :
    List (List ℝ × ℕ) :=
  (logits.zip labels).filter (fun p => i ≤ p.2)

/-- Modelled from the spec: the binary target of CORN sub-task `i` for
an example with the given label: `1` if `label > i` else `0`. -/
def cornTarget (i lbl : ℕ) : ℝ := if i < lbl then 1 else 0

/-- Modelled from the spec: the binary targets of CORN sub-task `i`,
one per example of its conditional training set. -/
def cornTargets (logits : List (List ℝ)) (labels : List ℕ) (i : ℕ) : List ℝ :=
  (cornSubset logits labels i).map (fun p => cornTarget i p.2)

/-- Modelled from the spec: accumulated log-likelihood of CORN sub-task
`i`: the sum, over the conditional training set, of the stable
cross-entropy term between logit column `i` and the binary target. -/
noncomputable def cornTaskSum (logits : List (List ℝ)) (labels : List ℕ) (i : ℕ) : ℝ :=
  ((cornSubset logits labels i).map
    (fun p => bceTerm (p.1.getD i 0) (cornTarget i p.2))).sum

/-- Modelled from the spec: the CORN loss (missing library function
`corn_loss`): negative sum of the per-task accumulated log-likelihood
terms, divided by the total original batch size. -/
noncomputable def corn_loss (logits : List (List ℝ)) (labels : List ℕ) (K : ℕ) : ℝ :=
  -(∑ i ∈ Finset.range (K - 1), cornTaskSum logits labels i) / labels.length

/-- Modelled from the spec: number of entries of a probability row that
exceed the `0.5` decision threshold. -/
def countAboveHalf {α : Type*} [LinearOrderedField α] (row : List α) : ℕ :=
  (row.filter (fun p => (1 : α) / 2 < p)).length

/-- Modelled from the spec: the CORAL decoder (missing library function
`proba_to_label`): each row of probabilities becomes the count of its
thresholds exceeding `0.5`. -/
def proba_to_label {α : Type*} [LinearOrderedField α] (probas : List (List α)) :
    List ℕ :=
  probas.map countAboveHalf

/-- Row-wise cumulative product, as `torch.cumprod` along a row:
`cumprod [a, b, c] = [a, a*b, a*(b*c)]`. -/
def cumprod {α : Type*} [Mul α] : List α → List α
  | [] => []
  | a :: as => a :: (cumprod as).map (fun x => a * x)

/-- Modelled from the spec: the CORN decoder (missing library function
`corn_label_from_logits`): sigmoid each logit, take the row-wise
cumulative product, and decode at threshold `0.5`. -/
noncomputable def corn_label_from_logits (logits : List (List ℝ)) : List ℕ :=
  proba_to_label (logits.map (fun row => cumprod (row.map sigmoid)))

/-- Dot product of a weight vector with a feature vector. -/
noncomputable def dot (w x : List ℝ) : ℝ := (List.zipWith (fun a b => a * b) w x).sum

/-- Modelled from the spec: forward pass of the CORAL output layer
(missing library class `CoralLayer`): one shared weight vector `w`, one
independent scalar bias per output unit; logit of unit `i` on example
`x` is `dot w x + b i`. -/
noncomputable def coralLayerForward (w b : List ℝ) (X : List (List ℝ)) :
    List (List ℝ) :=
  X.map (fun x => b.map (fun bi => dot w x + bi))

/-! ## Helper lemmas bridging list combinators and indexed sums -/

/-- Summing a function over a filtered list equals the masked indexed
sum over all positions. -/
lemma sum_map_filter_eq {β M : Type*} [AddCommMonoid M] (q : β → Bool)
    (f : β → M) (d : β) :
    ∀ l : List β,
      ((l.filter q).map f).sum =
        ∑ n ∈ Finset.range l.length, if q (l.getD n d) then f (l.getD n d) else 0
  | [] => by simp
  | a :: t => by
    rw [List.length_cons, Finset.sum_range_succ']
    simp only [List.getD_cons_succ, List.getD_cons_zero]
    rw [← sum_map_filter_eq q f d t]
    by_cases ha : q a
    · simp [List.filter_cons, ha, add_comm]
    · simp [List.filter_cons, ha]

/-- `getD` distributes over `zip` at in-range positions. -/
lemma getD_zip {α β : Type*} (da : α) (db : β) :
    ∀ (as : List α) (bs : List β) (n : ℕ), n < as.length → n < bs.length →
      (as.zip bs).getD n (da, db) = (as.getD n da, bs.getD n db)
  | [], _, n, h, _ => by simp at h
  | _ :: _, [], n, _, h => by simp at h
  | a :: as, b :: bs, 0, _, _ => rfl
  | a :: as, b :: bs, n + 1, h, h' => by
    simpa using getD_zip da db as bs n (by simpa using h) (by simpa using h')

/-- A `zipWith` sum over equal-length lists as an indexed sum. -/
lemma sum_zipWith_eq {α β M : Type*} [AddCommMonoid M] (f : α → β → M)
    (da : α) (db : β) :
    ∀ (as : List α) (bs : List β), as.length = bs.length →
      (List.zipWith f as bs).sum =
        ∑ n ∈ Finset.range as.length, f (as.getD n da) (bs.getD n db)
  | [], [], _ => by simp
  | [], _ :: _, h => by simp at h
  | _ :: _, [], h => by simp at h
  | a :: as, b :: bs, h => by
    rw [List.length_cons, Finset.sum_range_succ']
    simp only [List.getD_cons_succ, List.getD_cons_zero, List.zipWith_cons_cons,
      List.sum_cons]
    rw [sum_zipWith_eq f da db as bs (by simpa using h), add_comm]

/-- A `zipWith3` sum over equal-length lists as an indexed sum. -/
lemma sum_zipWith3_eq {α β γ M : Type*} [AddCommMonoid M] (f : α → β → γ → M)
    (da : α) (db : β) (dc : γ) :
    ∀ (as : List α) (bs : List β) (cs : List γ),
      as.length = bs.length → as.length = cs.length →
      (zipWith3 f as bs cs).sum =
        ∑ n ∈ Finset.range as.length, f (as.getD n da) (bs.getD n db) (cs.getD n dc)
  | [], [], [], _, _ => by simp [zipWith3]
  | [], _ :: _, _, h, _ => by simp at h
  | [], [], _ :: _, _, h => by simp at h
  | _ :: _, [], _, h, _ => by simp at h
  | _ :: _, _ :: _, [], _, h => by simp at h
  | a :: as, b :: bs, c :: cs, h, h' => by
    rw [List.length_cons, Finset.sum_range_succ']
    simp only [List.getD_cons_succ, List.getD_cons_zero, zipWith3, List.sum_cons]
    rw [sum_zipWith3_eq f da db dc as bs cs (by simpa using h) (by simpa using h'),
      add_comm]

/-- Length of a filtered list as the number of in-range positions whose
entry satisfies the test. -/
lemma length_filter_eq_card {α : Type*} (q : α → Bool) (d : α) (l : List α) :
    (l.filter q).length =
      ((Finset.range l.length).filter (fun i => q (l.getD i d))).card := by
  have h1 : ((l.filter q).map (fun _ => (1 : ℕ))).sum = (l.filter q).length := by
    induction l.filter q with
    | nil => rfl
    | cons a t ih => simp [ih, Nat.add_comm]
  rw [← h1, sum_map_filter_eq q (fun _ => (1 : ℕ)) d l, Finset.card_filter]

/-- A downward-closed finite set of naturals is an initial segment. -/
lemma downward_closed_eq_range (S : Finset ℕ)
    (h : ∀ a b : ℕ, a ≤ b → b ∈ S → a ∈ S) : S = Finset.range S.card := by
  have hub : ∀ a ∈ S, a < S.card := by
    intro a ha
    have hsub : Finset.range (a + 1) ⊆ S := by
      intro x hx
      exact h x a (Nat.lt_succ_iff.mp (Finset.mem_range.mp hx)) ha
    have := Finset.card_le_card hsub
    simpa [Finset.card_range, Nat.succ_le_iff] using this
  ext a
  constructor
  · intro ha
    exact Finset.mem_range.mpr (hub a ha)
  · intro ha
    by_contra hnot
    have hsub : S ⊆ Finset.range a := by
      intro b hb
      rcases lt_or_le b a with hba | hab
      · exact Finset.mem_range.mpr hba
      · exact absurd (h a b hab hb) hnot
    have := Finset.card_le_card hsub
    have := lt_of_lt_of_le (Finset.mem_range.mp ha) (by simpa using this)
    exact lt_irrefl a this

/-- `cumprod` preserves length. -/
lemma cumprod_length {α : Type*} [Mul α] : ∀ l : List α, (cumprod l).length = l.length
  | [] => rfl
  | a :: as => by simp [cumprod, cumprod_length as]

/-- An in-range entry of `cumprod` is the product of the prefix of the
input up to and including that position. -/
lemma cumprod_getD (d : ℝ) : ∀ (l : List ℝ) (i : ℕ), i < l.length →
      (cumprod l).getD i d = ((l.take (i + 1)).prod)
  | [], i, h => by simp at h
  | a :: as, 0, _ => by simp [cumprod]
  | a :: as, i + 1, h => by
    have hi : i < as.length := by simpa using h
    have hi' : i < (cumprod as).length := by rw [cumprod_length]; exact hi
    simp only [cumprod, List.getD_cons_succ, List.take_succ_cons, List.prod_cons]
    rw [List.getD_eq_getElem _ d (by simpa using hi'), List.getElem_map,
      ← List.getD_eq_getElem _ d hi', cumprod_getD d as i hi]

/-! ## Facts about the level encoding -/

/-- Entry `i` of a level row is the indicator of `i < label`. -/
lemma label_to_levels_getD (l K i : ℕ) (hi : i < K - 1) :
    (label_to_levels l K).getD i 2 = if i < l then 1 else 0 := by
  unfold label_to_levels
  rw [List.getD_eq_getElem _ _ (by simpa using hi)]
  simp

/-- For a label within range, the level row is `label` ones followed by
`K - 1 - label` zeros. -/
lemma label_to_levels_eq_replicate (l K : ℕ) (hl : l ≤ K - 1) :
    label_to_levels l K = List.replicate l 1 ++ List.replicate (K - 1 - l) 0 := by
  unfold label_to_levels
  have h : K - 1 = l + (K - 1 - l) := (Nat.add_sub_cancel' hl).symm
  rw [h, List.range_add, List.map_append, List.map_map]
  congr 1
  · rw [List.eq_replicate_iff]
    refine ⟨by simp, ?_⟩
    intro b hb
    simp only [List.mem_map, List.mem_range] at hb
    obtain ⟨i, hi, rfl⟩ := hb
    simp [hi]
  · rw [List.eq_replicate_iff]
    refine ⟨by simp, ?_⟩
    intro b hb
    simp only [List.mem_map, List.mem_range, Function.comp] at hb
    obtain ⟨i, hi, rfl⟩ := hb
    simp

/-- Row `n` of the batch encoding is the encoding of label `n`. -/
lemma levels_from_labelbatch_getD (labels : List ℕ) (K n : ℕ)
    (hn : n < labels.length) :
    (levels_from_labelbatch labels K).getD n [] =
      label_to_levels (labels.getD n 0) K := by
  unfold levels_from_labelbatch
  rw [List.getD_eq_getElem _ _ (by simpa using hn), List.getElem_map,
    ← List.getD_eq_getElem _ _ hn]

/-- C3: for every `K ≥ 2` and every label batch with values in
`[0, K-1]`, `levels_from_labelbatch` returns an `(N, K-1)` binary
matrix whose entry `[n][i]` is `1` exactly when `label[n] > i`, and
each row is `label[n]` ones followed by `K-1-label[n]` zeros. -/
theorem levels_from_labelbatch_binary_encoding (labels : List ℕ) (K : ℕ)
    (hK : 2 ≤ K) (hl : ∀ l ∈ labels, l < K) :
    (levels_from_labelbatch labels K).length = labels.length ∧
    (∀ row ∈ levels_from_labelbatch labels K, row.length = K - 1) ∧
    (∀ n, n < labels.length → ∀ i, i < K - 1 →
      ((levels_from_labelbatch labels K).getD n []).getD i 2 =
        if labels.getD n 0 > i then 1 else 0) ∧
    (∀ n, n < labels.length →
      (levels_from_labelbatch labels K).getD n [] =
        List.replicate (labels.getD n 0) 1 ++
          List.replicate (K - 1 - labels.getD n 0) 0) := by
  refine ⟨by simp [levels_from_labelbatch], ?_, ?_, ?_⟩
  · intro row hrow
    simp only [levels_from_labelbatch, List.mem_map] at hrow
    obtain ⟨l, _, rfl⟩ := hrow
    simp [label_to_levels]
  · intro n hn i hi
    rw [levels_from_labelbatch_getD labels K n hn, label_to_levels_getD _ _ _ hi]
  · intro n hn
    rw [levels_from_labelbatch_getD labels K n hn]
    have hmem : labels.getD n 0 ∈ labels := by
      rw [List.getD_eq_getElem _ _ hn]
      exact List.getElem_mem hn
    exact label_to_levels_eq_replicate _ _ (Nat.le_sub_one_of_lt (hl _ hmem))

/-- Witness for C3 at `K = 5`, labels `[0, 1, 2, 3, 4]`. -/
theorem levels_from_labelbatch_binary_encoding_witness :
    2 ≤ 5 ∧ (∀ l ∈ ([0, 1, 2, 3, 4] : List ℕ), l < 5) ∧
    ((levels_from_labelbatch [0, 1, 2, 3, 4] 5).length =
        ([0, 1, 2, 3, 4] : List ℕ).length ∧
    (∀ row ∈ levels_from_labelbatch [0, 1, 2, 3, 4] 5, row.length = 5 - 1) ∧
    (∀ n, n < ([0, 1, 2, 3, 4] : List ℕ).length → ∀ i, i < 5 - 1 →
      ((levels_from_labelbatch [0, 1, 2, 3, 4] 5).getD n []).getD i 2 =
        if ([0, 1, 2, 3, 4] : List ℕ).getD n 0 > i then 1 else 0) ∧
    (∀ n, n < ([0, 1, 2, 3, 4] : List ℕ).length →
      (levels_from_labelbatch [0, 1, 2, 3, 4] 5).getD n [] =
        List.replicate (([0, 1, 2, 3, 4] : List ℕ).getD n 0) 1 ++
          List.replicate (5 - 1 - ([0, 1, 2, 3, 4] : List ℕ).getD n 0) 0)) :=
  ⟨by decide, by decide,
    levels_from_labelbatch_binary_encoding [0, 1, 2, 3, 4] 5 (by decide) (by decide)⟩

/-! ## Facts about the CORN loss -/

/-- The accumulated log-likelihood of CORN sub-task `i` as a masked sum
over the whole batch: examples with `label < i` contribute `0`. -/
lemma cornTaskSum_eq_masked_sum (logits : List (List ℝ)) (labels : List ℕ)
    (i : ℕ) (h : logits.length = labels.length) :
    cornTaskSum logits labels i =
      ∑ n ∈ Finset.range labels.length,
        if i ≤ labels.getD n 0 then
          bceTerm ((logits.getD n []).getD i 0) (cornTarget i (labels.getD n 0))
        else 0 := by
  unfold cornTaskSum cornSubset
  rw [sum_map_filter_eq _ _ ([], 0)]
  have hlen : (logits.zip labels).length = labels.length := by
    simp [List.length_zip, h]
  rw [hlen]
  apply Finset.sum_congr rfl
  intro n hn
  have hn' : n < labels.length := Finset.mem_range.mp hn
  rw [getD_zip [] 0 logits labels n (h ▸ hn') hn']
  simp only [decide_eq_true_eq]

/-- C1: CORN sub-task `i` uses exactly the examples whose label is
`≥ i`, with binary target `1` if `label > i` else `0`; examples with
`label < i` contribute nothing. For `K = 3` and labels `[0, 1, 2]`,
task `0` uses all three examples with targets `[0, 1, 1]` and task `1`
uses the two examples with label `≥ 1` with targets `[0, 1]`. -/
theorem corn_loss_conditional_subtasks :
    (∀ (logits : List (List ℝ)) (labels : List ℕ) (i : ℕ),
      logits.length = labels.length →
      cornTaskSum logits labels i =
        ∑ n ∈ Finset.range labels.length,
          if i ≤ labels.getD n 0 then
            bceTerm ((logits.getD n []).getD i 0) (cornTarget i (labels.getD n 0))
          else 0) ∧
    (∀ z0 z1 z2 : List ℝ,
      cornSubset [z0, z1, z2] [0, 1, 2] 0 = [(z0, 0), (z1, 1), (z2, 2)] ∧
      cornTargets [z0, z1, z2] [0, 1, 2] 0 = [0, 1, 1] ∧
      cornSubset [z0, z1, z2] [0, 1, 2] 1 = [(z1, 1), (z2, 2)] ∧
      cornTargets [z0, z1, z2] [0, 1, 2] 1 = [0, 1]) := by
  refine ⟨cornTaskSum_eq_masked_sum, ?_⟩
  intro z0 z1 z2
  refine ⟨?_, ?_, ?_, ?_⟩ <;>
    simp [cornSubset, cornTargets, cornTarget, List.filter_cons]

/-- Witness for C1 at a one-example batch. -/
theorem corn_loss_conditional_subtasks_witness :
    ([[(0 : ℝ)]] : List (List ℝ)).length = ([0] : List ℕ).length ∧
    cornTaskSum [[(0 : ℝ)]] [0] 0 =
      ∑ n ∈ Finset.range ([0] : List ℕ).length,
        if 0 ≤ ([0] : List ℕ).getD n 0 then
          bceTerm ((([[(0 : ℝ)]] : List (List ℝ)).getD n []).getD 0 0)
            (cornTarget 0 (([0] : List ℕ).getD n 0))
        else 0 :=
  ⟨rfl, corn_loss_conditional_subtasks.1 [[(0 : ℝ)]] [0] 0 rfl⟩

/-- C2: `corn_loss` is the negative sum of the per-task accumulated
log-likelihood terms divided by `N`, the total original batch size —
not by the sum of the per-task conditional-subset sizes (for `K = 3`,
labels `[0, 1, 2]`, the subset sizes add up to `5` while `N = 3`). -/
theorem corn_loss_batch_normalization :
    (∀ (logits : List (List ℝ)) (labels : List ℕ) (K : ℕ),
      logits.length = labels.length →
      corn_loss logits labels K =
        -(∑ i ∈ Finset.range (K - 1),
            ∑ n ∈ Finset.range labels.length,
              if i ≤ labels.getD n 0 then
                bceTerm ((logits.getD n []).getD i 0)
                  (cornTarget i (labels.getD n 0))
              else 0) / (labels.length : ℝ)) ∧
    (∀ z0 z1 z2 : List ℝ,
      (∑ i ∈ Finset.range 2, (cornSubset [z0, z1, z2] [0, 1, 2] i).length) = 5 ∧
      ([0, 1, 2] : List ℕ).length = 3) := by
  constructor
  · intro logits labels K h
    unfold corn_loss
    rw [Finset.sum_congr rfl fun i _ => cornTaskSum_eq_masked_sum logits labels i h]
  · intro z0 z1 z2
    constructor
    · simp [cornSubset, List.filter_cons, Finset.sum_range_succ]
    · rfl

/-- Witness for C2 at a one-example batch. -/
theorem corn_loss_batch_normalization_witness :
    ([[(0 : ℝ)]] : List (List ℝ)).length = ([0] : List ℕ).length ∧
    corn_loss [[(0 : ℝ)]] [0] 2 =
      -(∑ i ∈ Finset.range (2 - 1),
          ∑ n ∈ Finset.range ([0] : List ℕ).length,
            if i ≤ ([0] : List ℕ).getD n 0 then
              bceTerm ((([[(0 : ℝ)]] : List (List ℝ)).getD n []).getD i 0)
                (cornTarget i (([0] : List ℕ).getD n 0))
            else 0) / (([0] : List ℕ).length : ℝ) :=
  ⟨rfl, corn_loss_batch_normalization.1 [[(0 : ℝ)]] [0] 2 rfl⟩

/-- C8: a CORN sub-task whose conditional subset is empty contributes
exactly `0` to the loss sum (the loss is a total function — no error,
no division by a subset size), so `corn_loss` equals the normalized
negative sum over only the sub-tasks with nonempty conditional
subsets. -/
theorem corn_loss_empty_subtask_zero :
    (∀ (logits : List (List ℝ)) (labels : List ℕ) (i : ℕ),
      (∀ l ∈ labels, l < i) →
      cornSubset logits labels i = [] ∧ cornTaskSum logits labels i = 0) ∧
    (∀ (logits : List (List ℝ)) (labels : List ℕ) (K : ℕ),
      corn_loss logits labels K =
        -(∑ i ∈ (Finset.range (K - 1)).filter
              (fun i => ∃ l ∈ labels, i ≤ l),
            cornTaskSum logits labels i) / (labels.length : ℝ)) := by
  have hempty : ∀ (logits : List (List ℝ)) (labels : List ℕ) (i : ℕ),
      (∀ l ∈ labels, l < i) → cornSubset logits labels i = [] := by
    intro logits labels i h
    unfold cornSubset
    rw [List.filter_eq_nil_iff]
    intro p hp
    have hlab : p.2 ∈ labels := (List.of_mem_zip hp).2
    simpa using Nat.not_le.mpr (h p.2 hlab)
  constructor
  · intro logits labels i h
    refine ⟨hempty logits labels i h, ?_⟩
    unfold cornTaskSum
    rw [hempty logits labels i h]
    rfl
  · intro logits labels K
    unfold corn_loss
    rw [Finset.sum_filter_of_ne]
    intro i _ hne
    by_contra hp
    push_neg at hp
    have : cornTaskSum logits labels i = 0 := by
      unfold cornTaskSum
      rw [hempty logits labels i fun l hl => hp l hl]
      rfl
    exact hne this

/-- Witness for C8: labels `[0]`, sub-task `1` has an empty subset. -/
theorem corn_loss_empty_subtask_zero_witness :
    (∀ l ∈ ([0] : List ℕ), l < 1) ∧
    (cornSubset [[(0 : ℝ)]] [0] 1 = [] ∧ cornTaskSum [[(0 : ℝ)]] [0] 1 = 0) :=
  ⟨by decide, corn_loss_empty_subtask_zero.1 [[(0 : ℝ)]] [0] 1 (by decide)⟩

/-! ## Facts about the CORAL loss -/

/-- An in-range `getD` entry is a member of the list. -/
lemma getD_mem_of_lt {α : Type*} (l : List α) (n : ℕ) (d : α)
    (h : n < l.length) : l.getD n d ∈ l := by
  rw [List.getD_eq_getElem _ _ h]
  exact List.getElem_mem h

/-- C4: for an `(N, K-1)` logits matrix, a same-shaped levels matrix and
a length-`K-1` importance-weight vector, `coral_loss` equals the negated
double sum of the stable cross-entropy-with-logits terms
`logsigmoid(z)*lvl + (logsigmoid(z) - z)*(1 - lvl)`, each scaled by its
task's importance weight, divided by `N`. -/
theorem coral_loss_stable_bce_formula (logits levels : List (List ℝ))
    (w : List ℝ) (N Km1 : ℕ) (hz : logits.length = N) (hl : levels.length = N)
    (hzr : ∀ r ∈ logits, r.length = Km1) (hlr : ∀ r ∈ levels, r.length = Km1)
    (hw : w.length = Km1) :
    coral_loss logits levels w =
      -(∑ n ∈ Finset.range N, ∑ i ∈ Finset.range Km1,
          bceTerm ((logits.getD n []).getD i 0) ((levels.getD n []).getD i 0) *
            w.getD i 0) / (N : ℝ) := by
  unfold coral_loss
  rw [sum_zipWith_eq _ [] [] logits levels (hz.trans hl.symm), hz]
  congr 1
  congr 1
  apply Finset.sum_congr rfl
  intro n hn
  have hn' : n < logits.length := hz ▸ Finset.mem_range.mp hn
  have hrowz : (logits.getD n []).length = Km1 :=
    hzr _ (getD_mem_of_lt logits n [] hn')
  have hrowl : (levels.getD n []).length = Km1 :=
    hlr _ (getD_mem_of_lt levels n [] (hl ▸ Finset.mem_range.mp hn))
  unfold coralRowLoss
  rw [sum_zipWith3_eq _ 0 0 0 _ _ _ (hrowz.trans hrowl.symm) (hrowz.trans hw.symm),
    hrowz]

/-- Witness for C4 at a one-example, one-task input. -/
theorem coral_loss_stable_bce_formula_witness :
    ([[(0 : ℝ)]] : List (List ℝ)).length = 1 ∧
    ([[(1 : ℝ)]] : List (List ℝ)).length = 1 ∧
    (∀ r ∈ ([[(0 : ℝ)]] : List (List ℝ)), r.length = 1) ∧
    (∀ r ∈ ([[(1 : ℝ)]] : List (List ℝ)), r.length = 1) ∧
    ([(1 : ℝ)] : List ℝ).length = 1 ∧
    coral_loss [[(0 : ℝ)]] [[(1 : ℝ)]] [(1 : ℝ)] =
      -(∑ n ∈ Finset.range 1, ∑ i ∈ Finset.range 1,
          bceTerm ((([[(0 : ℝ)]] : List (List ℝ)).getD n []).getD i 0)
              ((([[(1 : ℝ)]] : List (List ℝ)).getD n []).getD i 0) *
            ([(1 : ℝ)] : List ℝ).getD i 0) / ((1 : ℕ) : ℝ) :=
  ⟨rfl, rfl, by simp, by simp, rfl,
    coral_loss_stable_bce_formula [[(0 : ℝ)]] [[(1 : ℝ)]] [(1 : ℝ)] 1 1 rfl rfl
      (by simp) (by simp) rfl⟩

/-! ## Facts about the decoders -/

/-- An in-range `getD` entry of a mapped list. -/
lemma getD_map_of_lt {α β : Type*} (f : α → β) (l : List α) (n : ℕ) (d : α)
    (d' : β) (h : n < l.length) : (l.map f).getD n d' = f (l.getD n d) := by
  rw [List.getD_eq_getElem _ _ (by simpa using h), List.getElem_map,
    ← List.getD_eq_getElem _ _ h]

/-- C6: `proba_to_label` returns, for each row of the probability
matrix, exactly the count of thresholds `i` with `probability[i] > 0.5`,
with no monotonicity requirement on the row; in particular it decodes
the non-monotonic row `[0, 1]` to `1`. -/
theorem proba_to_label_counts_thresholds {α : Type*} [LinearOrderedField α] :
    (∀ (probas : List (List α)) (n : ℕ), n < probas.length →
      (proba_to_label probas).getD n 0 =
        ((Finset.range (probas.getD n []).length).filter
            (fun i => (1 : α) / 2 < (probas.getD n []).getD i 0)).card) ∧
    proba_to_label ([[(0 : α), 1]] : List (List α)) = [1] := by
  constructor
  · intro probas n hn
    rw [show (proba_to_label probas).getD n 0 =
        countAboveHalf (probas.getD n []) from
      getD_map_of_lt countAboveHalf probas n [] 0 hn]
    unfold countAboveHalf
    rw [length_filter_eq_card _ (0 : α)]
    apply congrArg
    apply Finset.filter_congr
    intro i _
    simp
  · norm_num [proba_to_label, countAboveHalf, List.filter_cons]

/-- Witness for C6 at a two-row rational probability matrix. -/
theorem proba_to_label_counts_thresholds_witness :
    (1 : ℕ) < ([[(0 : ℚ), 1], [1, 0, 1]] : List (List ℚ)).length ∧
    (proba_to_label ([[(0 : ℚ), 1], [1, 0, 1]] : List (List ℚ))).getD 1 0 =
      ((Finset.range (([[(0 : ℚ), 1], [1, 0, 1]] :
            List (List ℚ)).getD 1 []).length).filter
          (fun i => (1 : ℚ) / 2 <
            (([[(0 : ℚ), 1], [1, 0, 1]] : List (List ℚ)).getD 1 []).getD i 0)).card :=
  ⟨by decide,
    (proba_to_label_counts_thresholds (α := ℚ)).1 [[(0 : ℚ), 1], [1, 0, 1]] 1
      (by decide)⟩

/-- Decoding a row-wise cumulative product of sigmoids counts the
indices whose sigmoid-product exceeds one half. -/
lemma countAboveHalf_cumprod (row : List ℝ) :
    countAboveHalf (cumprod (row.map sigmoid)) =
      ((Finset.range row.length).filter
        (fun i => 1 / 2 < ((row.map sigmoid).take (i + 1)).prod)).card := by
  unfold countAboveHalf
  rw [length_filter_eq_card _ (0 : ℝ)]
  have hlen : (cumprod (row.map sigmoid)).length = row.length := by
    rw [cumprod_length, List.length_map]
  rw [hlen]
  apply congrArg
  apply Finset.filter_congr
  intro i hi
  have hi' : i < (row.map sigmoid).length := by
    simpa using Finset.mem_range.mp hi
  rw [cumprod_getD 0 (row.map sigmoid) i hi']
  simp

/-- C5: `corn_label_from_logits` is exactly the threshold-0.5 decoding
of the row-wise cumulative product of the element-wise sigmoid: row `n`
decodes to the count of indices `i` with
`sigmoid(z_0) * … * sigmoid(z_i) > 0.5`. -/
theorem corn_label_from_logits_cumprod_decode (logits : List (List ℝ)) (n : ℕ)
    (hn : n < logits.length) :
    corn_label_from_logits logits =
      proba_to_label (logits.map (fun row => cumprod (row.map sigmoid))) ∧
    (corn_label_from_logits logits).getD n 0 =
      ((Finset.range (logits.getD n []).length).filter
          (fun i =>
            1 / 2 < (((logits.getD n []).map sigmoid).take (i + 1)).prod)).card := by
  refine ⟨rfl, ?_⟩
  unfold corn_label_from_logits proba_to_label
  rw [getD_map_of_lt countAboveHalf _ n [] 0 (by simpa using hn),
    getD_map_of_lt (fun row => cumprod (row.map sigmoid)) logits n [] [] hn]
  exact countAboveHalf_cumprod (logits.getD n [])

/-- Witness for C5 at a one-row logits matrix. -/
theorem corn_label_from_logits_cumprod_decode_witness :
    (0 : ℕ) < ([[(0 : ℝ), 1]] : List (List ℝ)).length ∧
    (corn_label_from_logits [[(0 : ℝ), 1]]).getD 0 0 =
      ((Finset.range (([[(0 : ℝ), 1]] : List (List ℝ)).getD 0 []).length).filter
          (fun i =>
            1 / 2 < (((([[(0 : ℝ), 1]] : List (List ℝ)).getD 0 []).map
                sigmoid).take (i + 1)).prod)).card :=
  ⟨by decide,
    (corn_label_from_logits_cumprod_decode [[(0 : ℝ), 1]] 0 (by decide)).2⟩

/-- The decoder counts a block of ones entirely. -/
lemma countAboveHalf_replicate_one (n : ℕ) :
    countAboveHalf (List.replicate n (((1 : ℕ) : ℚ))) = n := by
  unfold countAboveHalf
  rw [List.filter_eq_self.mpr, List.length_replicate]
  intro a ha
  rw [List.eq_of_mem_replicate ha]
  norm_num

/-- The decoder counts a block of zeros not at all. -/
lemma countAboveHalf_replicate_zero (n : ℕ) :
    countAboveHalf (List.replicate n (((0 : ℕ) : ℚ))) = 0 := by
  unfold countAboveHalf
  rw [List.filter_eq_nil_iff.mpr, List.length_nil]
  intro a ha
  rw [List.eq_of_mem_replicate ha]
  norm_num

/-- Decoding the ideal probability vector of an in-range label recovers
the label. -/
lemma countAboveHalf_cast_levels (L K : ℕ) (hL : L ≤ K - 1) :
    countAboveHalf ((label_to_levels L K).map (Nat.cast : ℕ → ℚ)) = L := by
  rw [label_to_levels_eq_replicate L K hL, List.map_append, List.map_replicate,
    List.map_replicate]
  unfold countAboveHalf
  rw [List.filter_append, List.length_append]
  have h1 := countAboveHalf_replicate_one L
  have h2 := countAboveHalf_replicate_zero (K - 1 - L)
  unfold countAboveHalf at h1 h2
  rw [h1, h2, Nat.add_zero]

/-- C7: encoding a label `L` with `levels_from_labelbatch` and decoding
the corresponding ideal probability vector (`1` above the threshold for
`i < L`, `0` below it for `i ≥ L`) with `proba_to_label` returns `L`,
for every `K` in `{2, …, 10}` and every `L` in `[0, K-1]`. -/
theorem encode_decode_round_trip :
    ∀ K ∈ Finset.Icc 2 10, ∀ L ∈ Finset.range K,
      proba_to_label ((levels_from_labelbatch [L] K).map
          (fun row => row.map (Nat.cast : ℕ → ℚ))) = [L] := by
  intro K _ L hL
  have hL' : L ≤ K - 1 := Nat.le_sub_one_of_lt (Finset.mem_range.mp hL)
  simp only [levels_from_labelbatch, List.map_cons, List.map_nil, proba_to_label]
  rw [countAboveHalf_cast_levels L K hL']

/-- Witness for C7 at `K = 5`, `L = 3`. -/
theorem encode_decode_round_trip_witness :
    5 ∈ Finset.Icc 2 10 ∧ 3 ∈ Finset.range 5 ∧
    proba_to_label ((levels_from_labelbatch [3] 5).map
        (fun row => row.map (Nat.cast : ℕ → ℚ))) = [3] :=
  ⟨by decide, by decide, encode_decode_round_trip 5 (by decide) 3 (by decide)⟩

/-! ## Facts about the CORAL output layer -/

/-- C9: the CORAL layer forward pass is one affine map whose `K-1`
output units share a single weight vector and differ only by their
scalar bias: entry `i` of row `n` is `dot w x_n + b_i`, so the
difference between units `i` and `j` is the bias difference `b_i - b_j`,
the same constant for every example `n`. -/
theorem coral_layer_shared_weights (w b : List ℝ) (X : List (List ℝ)) :
    (coralLayerForward w b X).length = X.length ∧
    (∀ row ∈ coralLayerForward w b X, row.length = b.length) ∧
    (∀ n, n < X.length → ∀ i, i < b.length →
      ((coralLayerForward w b X).getD n []).getD i 0 =
        dot w (X.getD n []) + b.getD i 0) ∧
    (∀ n, n < X.length → ∀ i, i < b.length → ∀ j, j < b.length →
      ((coralLayerForward w b X).getD n []).getD i 0 -
          ((coralLayerForward w b X).getD n []).getD j 0 =
        b.getD i 0 - b.getD j 0) := by
  have hentry : ∀ n, n < X.length → ∀ i, i < b.length →
      ((coralLayerForward w b X).getD n []).getD i 0 =
        dot w (X.getD n []) + b.getD i 0 := by
    intro n hn i hi
    unfold coralLayerForward
    rw [getD_map_of_lt (fun x => b.map (fun bi => dot w x + bi)) X n [] [] hn,
      getD_map_of_lt (fun bi => dot w (X.getD n []) + bi) b i 0 0 hi]
  refine ⟨by simp [coralLayerForward], ?_, hentry, ?_⟩
  · intro row hrow
    simp only [coralLayerForward, List.mem_map] at hrow
    obtain ⟨x, _, rfl⟩ := hrow
    simp
  · intro n hn i hi j hj
    rw [hentry n hn i hi, hentry n hn j hj]
    ring

/-- Witness for C9: two units with biases `0` and `1` on one example. -/
theorem coral_layer_shared_weights_witness :
    (0 : ℕ) < ([[2]] : List (List ℝ)).length ∧
    (0 : ℕ) < ([0, 1] : List ℝ).length ∧ (1 : ℕ) < ([0, 1] : List ℝ).length ∧
    ((coralLayerForward [1] [0, 1] [[2]]).getD 0 []).getD 0 0 -
        ((coralLayerForward [1] [0, 1] [[2]]).getD 0 []).getD 1 0 =
      ([0, 1] : List ℝ).getD 0 0 - ([0, 1] : List ℝ).getD 1 0 :=
  ⟨by decide, by decide, by decide,
    (coral_layer_shared_weights [1] [0, 1] [[2]]).2.2.2 0 (by decide) 0 (by decide)
      1 (by decide)⟩

/-! ## Rank consistency of the CORN decoder -/

/-- The sigmoid is strictly positive. -/
lemma sigmoid_pos (x : ℝ) : 0 < sigmoid x := by
  unfold sigmoid
  positivity

/-- The sigmoid is strictly below one. -/
lemma sigmoid_lt_one (x : ℝ) : sigmoid x < 1 := by
  unfold sigmoid
  rw [div_lt_one (by positivity)]
  have := Real.exp_pos (-x)
  linarith

/-- A product of factors in `(0, 1)` is at most one. -/
lemma prod_le_one_of_lt_one (l : List ℝ) (h : ∀ a ∈ l, 0 < a ∧ a < 1) :
    l.prod ≤ 1 := by
  induction l with
  | nil => simp
  | cons a t ih =>
    rw [List.prod_cons]
    have ha := h a (List.mem_cons_self a t)
    have ht : ∀ x ∈ t, 0 < x ∧ x < 1 := fun x hx => h x (List.mem_cons_of_mem a hx)
    have h1 : t.prod ≤ 1 := ih ht
    have h2 : 0 < t.prod := List.prod_pos fun x hx => (ht x hx).1
    nlinarith

/-- The cumulative product of sigmoids is non-increasing along a row. -/
lemma cumprod_sigmoid_antitone (zs : List ℝ) (i j : ℕ) (hij : i ≤ j)
    (hj : j < zs.length) :
    (cumprod (zs.map sigmoid)).getD j 0 ≤ (cumprod (zs.map sigmoid)).getD i 0 := by
  have hmem : ∀ a ∈ zs.map sigmoid, 0 < a ∧ a < 1 := by
    intro a ha
    obtain ⟨x, _, rfl⟩ := List.mem_map.mp ha
    exact ⟨sigmoid_pos x, sigmoid_lt_one x⟩
  have hj' : j < (zs.map sigmoid).length := by simpa using hj
  have hi' : i < (zs.map sigmoid).length := lt_of_le_of_lt hij hj'
  rw [cumprod_getD 0 (zs.map sigmoid) j hj', cumprod_getD 0 (zs.map sigmoid) i hi']
  have hsplit : (zs.map sigmoid).take (j + 1) =
      (zs.map sigmoid).take (i + 1) ++
        (((zs.map sigmoid).drop (i + 1)).take (j - i)) := by
    rw [← List.take_add]
    congr 1
    omega
  rw [hsplit, List.prod_append]
  have hpos : 0 < ((zs.map sigmoid).take (i + 1)).prod :=
    List.prod_pos fun a ha => (hmem a (List.take_subset _ _ ha)).1
  have hle : ((((zs.map sigmoid).drop (i + 1)).take (j - i))).prod ≤ 1 :=
    prod_le_one_of_lt_one _ fun a ha =>
      hmem a (List.drop_subset _ _ (List.take_subset _ _ ha))
  nlinarith

/-- The CORN decoder count over cumulative probabilities, as a count of
in-range positions. -/
lemma countAboveHalf_cumprod_getD (zs : List ℝ) :
    countAboveHalf (cumprod (zs.map sigmoid)) =
      ((Finset.range zs.length).filter
        (fun k => 1 / 2 < (cumprod (zs.map sigmoid)).getD k 0)).card := by
  unfold countAboveHalf
  rw [length_filter_eq_card _ (0 : ℝ)]
  have hlen : (cumprod (zs.map sigmoid)).length = zs.length := by
    rw [cumprod_length, List.length_map]
  rw [hlen]
  apply congrArg
  apply Finset.filter_congr
  intro k _
  simp

/-- C10: every sigmoid factor lies strictly in `(0, 1)`, so the CORN
cumulative probabilities are non-increasing along the row and a
threshold is exceeded exactly when its index is below the decoded
count — the exceeded thresholds always form an initial segment, hence
CORN-decoded predictions are rank-consistent by construction. -/
theorem corn_cumprod_rank_consistency :
    (∀ x : ℝ, 0 < sigmoid x ∧ sigmoid x < 1) ∧
    (∀ (zs : List ℝ) (i j : ℕ), i ≤ j → j < zs.length →
      (cumprod (zs.map sigmoid)).getD j 0 ≤
        (cumprod (zs.map sigmoid)).getD i 0) ∧
    (∀ (zs : List ℝ) (i : ℕ), i < zs.length →
      (1 / 2 < (cumprod (zs.map sigmoid)).getD i 0 ↔
        i < countAboveHalf (cumprod (zs.map sigmoid)))) := by
  refine ⟨fun x => ⟨sigmoid_pos x, sigmoid_lt_one x⟩, cumprod_sigmoid_antitone, ?_⟩
  intro zs i hi
  have hdc : ∀ a b : ℕ, a ≤ b →
      b ∈ (Finset.range zs.length).filter
          (fun k => 1 / 2 < (cumprod (zs.map sigmoid)).getD k 0) →
      a ∈ (Finset.range zs.length).filter
          (fun k => 1 / 2 < (cumprod (zs.map sigmoid)).getD k 0) := by
    intro a b hab hb
    rw [Finset.mem_filter, Finset.mem_range] at hb ⊢
    obtain ⟨hblen, hbp⟩ := hb
    exact ⟨lt_of_le_of_lt hab hblen,
      lt_of_lt_of_le hbp (cumprod_sigmoid_antitone zs a b hab hblen)⟩
  have hrange := downward_closed_eq_range _ hdc
  rw [countAboveHalf_cumprod_getD]
  constructor
  · intro hp
    have hiS : i ∈ (Finset.range zs.length).filter
        (fun k => 1 / 2 < (cumprod (zs.map sigmoid)).getD k 0) := by
      rw [Finset.mem_filter, Finset.mem_range]
      exact ⟨hi, hp⟩
    rw [hrange] at hiS
    exact Finset.mem_range.mp hiS
  · intro hlt
    have hiS : i ∈ (Finset.range zs.length).filter
        (fun k => 1 / 2 < (cumprod (zs.map sigmoid)).getD k 0) := by
      rw [hrange]
      exact Finset.mem_range.mpr hlt
    rw [Finset.mem_filter] at hiS
    exact hiS.2

/-- Witness for C10 at the logits row `[0, 0]`. -/
theorem corn_cumprod_rank_consistency_witness :
    (0 : ℕ) ≤ 1 ∧ (1 : ℕ) < ([0, 0] : List ℝ).length ∧
    (cumprod (([0, 0] : List ℝ).map sigmoid)).getD 1 0 ≤
      (cumprod (([0, 0] : List ℝ).map sigmoid)).getD 0 0 :=
  ⟨by decide, by decide,
    corn_cumprod_rank_consistency.2.1 [0, 0] 0 1 (by decide) (by decide)⟩

end CoralPytorch
